import Mathlib

/-!
Verification of the watchfiles repository (Python sources under `watchfiles/`
and the bundled legacy `watchgod/` package) against its natural-language
specification.

The Python code is shallowly embedded: pure functions become Lean functions,
the mutable walk of `watchgod.watcher.AllWatcher` becomes explicit state
passing over a filesystem snapshot, and Python `dict` / `set` become an
association list / `Finset`.  Floating point mtimes are modelled as `Int`
(only equality with other mtimes and Python truthiness, i.e. comparison with
`0`, are ever used by the code).
-/

namespace Watchfiles

/-- `Change` from `watchfiles/main.py` (and identically `watchgod/watcher.py`):
an `IntEnum` with members `added = 1`, `modified = 2`, `deleted = 3`. -/
inductive Change : Type
  | added
  | modified
  | deleted
deriving DecidableEq, Repr

/-- The integer wire value of a `Change` member (the `IntEnum` value). -/
def Change.toRaw : Change → Nat
  | .added => 1
  | .modified => 2
  | .deleted => 3

/-- `Change(k)`: the `IntEnum` constructor-by-value; raises `ValueError`
(here: `none`) for an integer that is not 1, 2 or 3. -/
def Change.ofRaw (n : Nat) : Option Change :=
  if n = 1 then some .added
  else if n = 2 then some .modified
  else if n = 3 then some .deleted
  else none

/-- `Change.raw_str` from `watchfiles/main.py`: this if-chain returns
`'added'` / `'modified'` and `'deleted'` for everything else. -/
def Change.raw_str (c : Change) : String :=
  if c = .added then "added"
  else if c = .modified then "modified"
  else "deleted"

/-- A raw backend event: `(kind_int, path)` as produced by `RustNotify.watch`. -/
abbrev RawEvent := Nat × String

/-- `FileChange` from `watchfiles/main.py`: `(Change, path)`. -/
abbrev FileChange := Change × String

/-- `_prep_changes` from `watchfiles/main.py`:
`changes = {(Change(change), path) for change, path in raw_changes}`, then
`if watch_filter: changes = {c for c in changes if watch_filter(c[0], c[1])}`.
A raw kind outside {1,2,3} makes `Change(change)` raise `ValueError`,
modelled as `none`. -/
def prepChanges (raw : Finset RawEvent) (watchFilter : Option (Change → String → Bool)) :
    Option (Finset FileChange) :=
  if ∀ r ∈ raw, (Change.ofRaw r.1).isSome = true then
    let changes : Finset FileChange := raw.image (fun r => ((Change.ofRaw r.1).getD .added, r.2))
    some (match watchFilter with
          | some f => changes.filter (fun c => f c.1 c.2 = true)
          | none => changes)
  else none

theorem Change.ofRaw_eq_some {n : Nat} {c : Change} :
    Change.ofRaw n = some c ↔ n = c.toRaw := by
  unfold Change.ofRaw
  split_ifs with h1 h2 h3 <;> cases c <;>
    simp_all [Change.toRaw]

theorem Change.ofRaw_toRaw (c : Change) : Change.ofRaw c.toRaw = some c := by
  cases c <;> rfl

/-- **C1**: for every set of raw `(kind_int, path)` events whose kinds are
valid enum values and every optional predicate, `_prep_changes` succeeds and
returns exactly the set of `(Change(k), p)` for `(k, p)` in the raw set that
pass the predicate (all of them when the predicate is `None`): duplicates are
collapsed (the result is a `Finset`), failing records are discarded, and
distinct kinds for one path are independent members. -/
theorem prep_changes_exact (raw : Finset RawEvent) (wf : Option (Change → String → Bool))
    (hvalid : ∀ r ∈ raw, (Change.ofRaw r.1).isSome = true) (c : Change) (p : String) :
    ∃ cs, prepChanges raw wf = some cs ∧
      ((c, p) ∈ cs ↔ ((c.toRaw, p) ∈ raw ∧ ∀ f, wf = some f → f c p = true)) := by
  have hmem : ∀ q : FileChange,
      q ∈ raw.image (fun r => ((Change.ofRaw r.1).getD .added, r.2)) ↔
        (q.1.toRaw, q.2) ∈ raw := by
    intro q
    rw [Finset.mem_image]
    constructor
    · rintro ⟨r, hr, hq⟩
      have hs := hvalid r hr
      obtain ⟨c0, hc0⟩ := Option.isSome_iff_exists.mp hs
      have hr1 : r.1 = c0.toRaw := Change.ofRaw_eq_some.mp hc0
      rw [hc0] at hq
      simp only [Option.getD_some] at hq
      have h1 : q.1 = c0 := by rw [← hq]
      have h2 : q.2 = r.2 := by rw [← hq]
      rw [h1, h2, ← hr1]
      exact hr
    · intro hq
      refine ⟨(q.1.toRaw, q.2), hq, ?_⟩
      simp [Change.ofRaw_toRaw]
  unfold prepChanges
  rw [if_pos hvalid]
  cases wf with
  | none =>
      refine ⟨_, rfl, ?_⟩
      rw [hmem (c, p)]
      simp
  | some f =>
      refine ⟨_, rfl, ?_⟩
      rw [Finset.mem_filter, hmem (c, p)]
      simp

/-- Witness for C1 at a concrete input: raw events `(1, "a")`, `(2, "a")`,
`(2, "b")` with the predicate `p = "a"`; the record `(modified, "a")` is kept. -/
theorem prep_changes_exact_witness :
    ∃ cs, prepChanges {(1, "a"), (2, "a"), (2, "b")}
        (some (fun _ p => p = "a")) = some cs ∧
      ((Change.modified, "a") ∈ cs ↔
        (((Change.modified).toRaw, "a") ∈ ({(1, "a"), (2, "a"), (2, "b")} : Finset RawEvent) ∧
          ∀ f, (some (fun (_ : Change) (p : String) => decide (p = "a"))) = some f →
            f Change.modified "a" = true)) :=
  prep_changes_exact {(1, "a"), (2, "a"), (2, "b")} (some (fun _ p => p = "a"))
    (by decide) Change.modified "a"

/-! ## The polling watcher, `watchgod/watcher.py` -/

/-- A Python `Dict[str, float]` as an insertion-ordered association list
(each key occurs at most once once built by `dinsert` from `[]`). -/
abbrev Dict := List (String × Int)

/-- `m.get(k)`: the value stored under `k`, or `None`. -/
def dget : Dict → String → Option Int
  | [], _ => none
  | (k0, v0) :: rest, k => if k0 = k then some v0 else dget rest k

/-- `m[k] = v`: overwrite in place if the key is present, else append. -/
def dinsert : Dict → String → Int → Dict
  | [], k, v => [(k, v)]
  | (k0, v0) :: rest, k, v =>
      if k0 = k then (k0, v) :: rest else (k0, v0) :: dinsert rest k v

/-- `m.keys()` as a set. -/
def dkeys (m : Dict) : Finset String := (m.map (fun e => e.1)).toFinset

/-- The entries yielded by `os.scandir` on a directory, in order: each entry
is either a regular file with an mtime or a subdirectory with its own
entries.  (A flattened mutual inductive so that the walk below is structural
recursion and computes by kernel reduction.) -/
inductive FSDir : Type
  | nil : FSDir
  | consFile (name : String) (mtime : Int) (rest : FSDir) : FSDir
  | consDir (name : String) (sub : FSDir) (rest : FSDir) : FSDir
deriving Repr, DecidableEq

/-- A filesystem snapshot as seen by one `check()` call: the root path names
either a regular file with an mtime (`os.path.isfile`), or a directory
(with `entry.path = os.path.join(dir, name)` for each scanned entry). -/
inductive FSNode : Type
  | file (mtime : Int)
  | dir (entries : FSDir)
deriving Repr, DecidableEq

/-- Is the first character of `s` the separator `'/'`?  This is
`s.startswith('/')` for the single-character posix separator. -/
def headIsSlash (s : String) : Bool :=
  match s.data with
  | [] => false
  | c :: _ => c = '/'

/-- Is the last character of `s` the separator `'/'` (`s.endswith('/')`)? -/
def lastIsSlash (s : String) : Bool :=
  match s.data.getLast? with
  | some c => decide (c = '/')
  | none => false

/-- `os.path.join(a, b)` on posix: `b` if it is absolute, else `a` and `b`
joined with `'/'` (no separator inserted when `a` is empty or already ends
with one). -/
def pjoin (a b : String) : String :=
  if headIsSlash b then b
  else if a = "" ∨ lastIsSlash a = true then a ++ b
  else a ++ "/" ++ b

/-- The state of `watchgod.watcher.AllWatcher` between `check()` calls:
`self.files`, `self.root_path`, `self.ignored_paths`. -/
structure AllWatcher : Type where
  files : Dict
  root_path : String
  ignored_paths : Option (Finset String)

/-- The two sets mutated during a walk: `changes` and `new_files`. -/
structure WalkState : Type where
  changes : Finset FileChange
  newFiles : Dict

/-- `AllWatcher._watch_file`: record the mtime in `new_files`; if
`self.files.get(path)` is `None` **or falsy (mtime 0)** add `Added`, else if
the mtime changed add `Modified`. -/
def watchFile (files : Dict) (path : String) (mtime : Int) (st : WalkState) : WalkState :=
  let nf := dinsert st.newFiles path mtime
  match dget files path with
  | none => ⟨insert (Change.added, path) st.changes, nf⟩
  | some m0 =>
      if m0 = 0 then ⟨insert (Change.added, path) st.changes, nf⟩
      else if m0 ≠ mtime then ⟨insert (Change.modified, path) st.changes, nf⟩
      else ⟨st.changes, nf⟩

/-- The guard in `AllWatcher._walk_dir`:
`self.ignored_paths is not None and os.path.join(dir_path, entry) in self.ignored_paths`
(note `os.fspath(entry)` is `entry.path`, the already-joined path). -/
def isIgnored (ip : Option (Finset String)) (dirPath entryPath : String) : Bool :=
  match ip with
  | some s => decide (pjoin dirPath entryPath ∈ s)
  | none => false

/-- `AllWatcher._walk_dir`: scan the entries of `dir_path`; skip ignored
entries; recurse into directories (`should_watch_dir` is constantly true for
`AllWatcher`) and stat files (`should_watch_file` likewise). -/
def walkEntries (w : AllWatcher) : String → FSDir → WalkState → WalkState
  | _, .nil, st => st
  | dirPath, .consFile name mtime rest, st =>
      let entryPath := pjoin dirPath name
      let st2 :=
        if isIgnored w.ignored_paths dirPath entryPath then st
        else watchFile w.files entryPath mtime st
      walkEntries w dirPath rest st2
  | dirPath, .consDir name sub rest, st =>
      let entryPath := pjoin dirPath name
      let st2 :=
        if isIgnored w.ignored_paths dirPath entryPath then st
        else walkEntries w entryPath sub st
      walkEntries w dirPath rest st2

/-- `AllWatcher._walk` applied to `self.root_path`: a file is stat-ed
directly (no ignored-paths guard!), a directory is scanned. -/
def walk (w : AllWatcher) (snapshot : FSNode) (st : WalkState) : WalkState :=
  match snapshot with
  | .file mtime => watchFile w.files w.root_path mtime st
  | .dir es => walkEntries w w.root_path es st

/-- `AllWatcher.check`: walk the snapshot from empty state, add a `Deleted`
record for every old key missing from `new_files`, store `new_files` as
`self.files`, and return the change set. -/
def check (w : AllWatcher) (snapshot : FSNode) : Finset FileChange × AllWatcher :=
  let st := walk w snapshot ⟨∅, []⟩
  let deleted := dkeys w.files \ dkeys st.newFiles
  (st.changes ∪ deleted.image (fun p => (Change.deleted, p)),
   { w with files := st.newFiles })

/-- `AllWatcher.__init__`: start with `files = {}` and run one baseline
`check()` whose result is discarded. -/
def mkAllWatcher (rootPath : String) (ignoredPaths : Option (Finset String))
    (snapshot : FSNode) : AllWatcher :=
  (check ⟨[], rootPath, ignoredPaths⟩ snapshot).2

/-- A sequence of `check()` calls against successive snapshots, collecting
the returned batches. -/
def runChecks : AllWatcher → List FSNode → List (Finset FileChange) × AllWatcher
  | w, [] => ([], w)
  | w, fs :: rest =>
      let r := check w fs
      let rr := runChecks r.2 rest
      (r.1 :: rr.1, rr.2)

/-! ### Association-list (Python dict) lemmas -/

theorem dget_dinsert (m : Dict) (k : String) (v : Int) (q : String) :
    dget (dinsert m k v) q = if k = q then some v else dget m q := by
  induction m with
  | nil => simp [dget, dinsert]
  | cons e rest ih =>
      obtain ⟨k0, v0⟩ := e
      by_cases h0 : k0 = k
      · subst h0
        by_cases hq : k0 = q <;> simp [dget, dinsert, hq]
      · by_cases hq : k0 = q
        · subst hq
          have : ¬ k = k0 := fun h => h0 h.symm
          simp [dget, dinsert, h0, this]
        · simp [dget, dinsert, h0, hq, ih]

theorem dkeys_dinsert (m : Dict) (k : String) (v : Int) :
    dkeys (dinsert m k v) = insert k (dkeys m) := by
  induction m with
  | nil => simp [dkeys, dinsert]
  | cons e rest ih =>
      obtain ⟨k0, v0⟩ := e
      by_cases h0 : k0 = k
      · subst h0
        simp [dkeys, dinsert]
      · simp only [dkeys, dinsert, h0, if_false, List.map_cons, List.toFinset_cons]
        rw [show ((dinsert rest k v).map (fun e => e.1)).toFinset = dkeys (dinsert rest k v) from rfl,
            ih]
        rw [show (rest.map (fun e => e.1)).toFinset = dkeys rest from rfl]
        exact Finset.Insert.comm k0 k (dkeys rest)

theorem dget_eq_none_iff (m : Dict) (q : String) :
    dget m q = none ↔ q ∉ dkeys m := by
  induction m with
  | nil => simp [dget, dkeys]
  | cons e rest ih =>
      obtain ⟨k0, v0⟩ := e
      by_cases h0 : k0 = q
      · subst h0
        simp [dget, dkeys]
      · have hne : ¬ q = k0 := fun h => h0 h.symm
        simp [dget, dkeys, h0, hne, ih]

theorem mem_dkeys_of_dget {m : Dict} {q : String} {v : Int}
    (h : dget m q = some v) : q ∈ dkeys m := by
  by_contra hq
  rw [← dget_eq_none_iff] at hq
  rw [h] at hq
  exact Option.noConfusion hq

/-! ### `os.path.join` lemmas -/

theorem headIsSlash_empty : headIsSlash "" = false := rfl

theorem headIsSlash_append {a : String} (b : String) (ha : a.data ≠ []) :
    headIsSlash (a ++ b) = headIsSlash a := by
  unfold headIsSlash
  rw [String.data_append]
  cases hd : a.data with
  | nil => exact absurd hd ha
  | cons c t => simp

theorem data_ne_nil_of_headIsSlash {a : String} (h : headIsSlash a = true) :
    a.data ≠ [] := by
  intro hd
  unfold headIsSlash at h
  rw [hd] at h
  exact Bool.noConfusion h

theorem pjoin_of_headIsSlash {a b : String} (h : headIsSlash b = true) :
    pjoin a b = b := by
  unfold pjoin
  rw [if_pos h]

theorem headIsSlash_pjoin {a : String} (b : String) (ha : headIsSlash a = true) :
    headIsSlash (pjoin a b) = true := by
  have hne : a.data ≠ [] := data_ne_nil_of_headIsSlash ha
  unfold pjoin
  split_ifs with h1 h2
  · exact h1
  · rw [headIsSlash_append b hne]
    exact ha
  · have hslash : (a ++ "/").data ≠ [] := by
      rw [String.data_append]
      intro hx
      exact hne (List.append_eq_nil.mp hx).1
    rw [headIsSlash_append b hslash, headIsSlash_append "/" hne]
    exact ha

/-! ### `_watch_file` lemmas -/

theorem watchFile_newFiles (files : Dict) (path : String) (mtime : Int) (st : WalkState) :
    (watchFile files path mtime st).newFiles = dinsert st.newFiles path mtime := by
  unfold watchFile
  split <;> try rfl
  split_ifs <;> rfl

theorem watchFile_changes_subset (files : Dict) (path : String) (mtime : Int) (st : WalkState) :
    st.changes ⊆ (watchFile files path mtime st).changes := by
  unfold watchFile
  split
  · exact Finset.subset_insert _ _
  · split_ifs
    · exact Finset.subset_insert _ _
    · exact Finset.subset_insert _ _
    · exact Finset.Subset.refl _

theorem mem_watchFile_changes {files : Dict} {path : String} {mtime : Int} {st : WalkState}
    {q : FileChange} (h : q ∈ (watchFile files path mtime st).changes) :
    q ∈ st.changes ∨ ((q.1 = Change.added ∨ q.1 = Change.modified) ∧ q.2 = path) := by
  unfold watchFile at h
  split at h
  · rcases Finset.mem_insert.mp h with h | h
    · subst h; right; exact ⟨Or.inl rfl, rfl⟩
    · exact Or.inl h
  · split_ifs at h
    · rcases Finset.mem_insert.mp h with h | h
      · subst h; right; exact ⟨Or.inl rfl, rfl⟩
      · exact Or.inl h
    · rcases Finset.mem_insert.mp h with h | h
      · subst h; right; exact ⟨Or.inr rfl, rfl⟩
      · exact Or.inl h
    · exact Or.inl h

theorem watchFile_added {files : Dict} {path : String} (mtime : Int) (st : WalkState)
    (h : dget files path = none) :
    (Change.added, path) ∈ (watchFile files path mtime st).changes := by
  unfold watchFile
  rw [h]
  exact Finset.mem_insert_self _ _

theorem watchFile_modified {files : Dict} {path : String} {m0 : Int} (mtime : Int)
    (st : WalkState) (h : dget files path = some m0) (h0 : m0 ≠ 0) (hm : m0 ≠ mtime) :
    (Change.modified, path) ∈ (watchFile files path mtime st).changes := by
  unfold watchFile
  rw [h]
  simp only [h0, if_false, hm, ne_eq, not_false_eq_true, if_true]
  exact Finset.mem_insert_self _ _

/-! ### `_walk_dir` lemmas -/

theorem walkEntries_nil (w : AllWatcher) (dirPath : String) (st : WalkState) :
    walkEntries w dirPath .nil st = st := rfl

theorem walkEntries_consFile (w : AllWatcher) (dirPath name : String) (mtime : Int)
    (rest : FSDir) (st : WalkState) :
    walkEntries w dirPath (.consFile name mtime rest) st =
      walkEntries w dirPath rest
        (if isIgnored w.ignored_paths dirPath (pjoin dirPath name) then st
         else watchFile w.files (pjoin dirPath name) mtime st) := rfl

theorem walkEntries_consDir (w : AllWatcher) (dirPath name : String)
    (sub rest : FSDir) (st : WalkState) :
    walkEntries w dirPath (.consDir name sub rest) st =
      walkEntries w dirPath rest
        (if isIgnored w.ignored_paths dirPath (pjoin dirPath name) then st
         else walkEntries w (pjoin dirPath name) sub st) := rfl

theorem walkEntries_changes_subset (w : AllWatcher) (es : FSDir) :
    ∀ dirPath st, st.changes ⊆ (walkEntries w dirPath es st).changes := by
  induction es with
  | nil => intro dirPath st; rw [walkEntries_nil]
  | consFile name mtime rest ih =>
      intro dirPath st
      rw [walkEntries_consFile]
      refine Finset.Subset.trans ?_ (ih dirPath _)
      split_ifs
      · exact Finset.Subset.refl _
      · exact watchFile_changes_subset _ _ _ _
  | consDir name sub rest ihsub ihrest =>
      intro dirPath st
      rw [walkEntries_consDir]
      refine Finset.Subset.trans ?_ (ihrest dirPath _)
      split_ifs
      · exact Finset.Subset.refl _
      · exact ihsub _ st

theorem walkEntries_keys_subset (w : AllWatcher) (es : FSDir) :
    ∀ dirPath st, dkeys st.newFiles ⊆ dkeys (walkEntries w dirPath es st).newFiles := by
  induction es with
  | nil => intro dirPath st; rw [walkEntries_nil]
  | consFile name mtime rest ih =>
      intro dirPath st
      rw [walkEntries_consFile]
      refine Finset.Subset.trans ?_ (ih dirPath _)
      split_ifs
      · exact Finset.Subset.refl _
      · rw [watchFile_newFiles, dkeys_dinsert]
        exact Finset.subset_insert _ _
  | consDir name sub rest ihsub ihrest =>
      intro dirPath st
      rw [walkEntries_consDir]
      refine Finset.Subset.trans ?_ (ihrest dirPath _)
      split_ifs
      · exact Finset.Subset.refl _
      · exact ihsub _ st

theorem walkEntries_added_of_new_key (w : AllWatcher) (es : FSDir) :
    ∀ dirPath st p, p ∈ dkeys (walkEntries w dirPath es st).newFiles →
      dget w.files p = none →
      p ∈ dkeys st.newFiles ∨ (Change.added, p) ∈ (walkEntries w dirPath es st).changes := by
  induction es with
  | nil =>
      intro dirPath st p hp _
      rw [walkEntries_nil] at hp
      exact Or.inl hp
  | consFile name mtime rest ih =>
      intro dirPath st p hp hnone
      rw [walkEntries_consFile] at hp ⊢
      rcases ih dirPath _ p hp hnone with h | h
      · split_ifs at h with hig
        · exact Or.inl h
        · rw [watchFile_newFiles, dkeys_dinsert] at h
          rcases Finset.mem_insert.mp h with h | h
          · subst h
            right
            refine walkEntries_changes_subset w rest dirPath _ ?_
            rw [if_neg hig]
            exact watchFile_added mtime st hnone
          · exact Or.inl h
      · exact Or.inr h
  | consDir name sub rest ihsub ihrest =>
      intro dirPath st p hp hnone
      rw [walkEntries_consDir] at hp ⊢
      rcases ihrest dirPath _ p hp hnone with h | h
      · split_ifs at h with hig
        · exact Or.inl h
        · rcases ihsub _ st p h hnone with h2 | h2
          · exact Or.inl h2
          · right
            refine walkEntries_changes_subset w rest dirPath _ ?_
            rw [if_neg hig]
            exact h2
      · exact Or.inr h

theorem walkEntries_modified_of_changed (w : AllWatcher) (es : FSDir) :
    ∀ dirPath st p m0 m1, dget (walkEntries w dirPath es st).newFiles p = some m1 →
      dget w.files p = some m0 → m0 ≠ 0 → m0 ≠ m1 →
      dget st.newFiles p = some m1 ∨
        (Change.modified, p) ∈ (walkEntries w dirPath es st).changes := by
  induction es with
  | nil =>
      intro dirPath st p m0 m1 hp _ _ _
      rw [walkEntries_nil] at hp
      exact Or.inl hp
  | consFile name mtime rest ih =>
      intro dirPath st p m0 m1 hp hold h0 hm
      rw [walkEntries_consFile] at hp ⊢
      rcases ih dirPath _ p m0 m1 hp hold h0 hm with h | h
      · split_ifs at h with hig
        · exact Or.inl h
        · rw [watchFile_newFiles, dget_dinsert] at h
          by_cases hpe : pjoin dirPath name = p
          · rw [if_pos hpe] at h
            have hmt : mtime = m1 := Option.some.inj h
            subst hmt hpe
            right
            refine walkEntries_changes_subset w rest dirPath _ ?_
            rw [if_neg hig]
            exact watchFile_modified mtime st hold h0 hm
          · rw [if_neg hpe] at h
            exact Or.inl h
      · exact Or.inr h
  | consDir name sub rest ihsub ihrest =>
      intro dirPath st p m0 m1 hp hold h0 hm
      rw [walkEntries_consDir] at hp ⊢
      rcases ihrest dirPath _ p m0 m1 hp hold h0 hm with h | h
      · split_ifs at h with hig
        · exact Or.inl h
        · rcases ihsub _ st p m0 m1 h hold h0 hm with h2 | h2
          · exact Or.inl h2
          · right
            refine walkEntries_changes_subset w rest dirPath _ ?_
            rw [if_neg hig]
            exact h2
      · exact Or.inr h

theorem walkEntries_added_mem_keys (w : AllWatcher) (es : FSDir) :
    ∀ dirPath st p, (Change.added, p) ∈ (walkEntries w dirPath es st).changes →
      (Change.added, p) ∈ st.changes ∨ p ∈ dkeys (walkEntries w dirPath es st).newFiles := by
  induction es with
  | nil =>
      intro dirPath st p hp
      rw [walkEntries_nil] at hp
      exact Or.inl hp
  | consFile name mtime rest ih =>
      intro dirPath st p hp
      rw [walkEntries_consFile] at hp ⊢
      rcases ih dirPath _ p hp with h | h
      · split_ifs at h with hig
        · rw [if_pos hig]
          exact Or.inl h
        · rcases mem_watchFile_changes h with h2 | h2
          · rw [if_neg hig]
            exact Or.inl h2
          · right
            refine walkEntries_keys_subset w rest dirPath _ ?_
            rw [if_neg hig, watchFile_newFiles, dkeys_dinsert]
            rw [show ((Change.added, p) : FileChange).2 = p from rfl] at h2
            rw [h2.2]
            exact Finset.mem_insert_self _ _
      · exact Or.inr h
  | consDir name sub rest ihsub ihrest =>
      intro dirPath st p hp
      rw [walkEntries_consDir] at hp ⊢
      rcases ihrest dirPath _ p hp with h | h
      · split_ifs at h with hig
        · rw [if_pos hig]
          exact Or.inl h
        · rcases ihsub _ st p h with h2 | h2
          · rw [if_neg hig]
            exact Or.inl h2
          · right
            refine walkEntries_keys_subset w rest dirPath _ ?_
            rw [if_neg hig]
            exact h2
      · exact Or.inr h

theorem walkEntries_kinds (w : AllWatcher) (es : FSDir) :
    ∀ dirPath st q, q ∈ (walkEntries w dirPath es st).changes →
      q ∈ st.changes ∨ q.1 = Change.added ∨ q.1 = Change.modified := by
  induction es with
  | nil =>
      intro dirPath st q hq
      rw [walkEntries_nil] at hq
      exact Or.inl hq
  | consFile name mtime rest ih =>
      intro dirPath st q hq
      rw [walkEntries_consFile] at hq
      rcases ih dirPath _ q hq with h | h
      · split_ifs at h
        · exact Or.inl h
        · rcases mem_watchFile_changes h with h2 | h2
          · exact Or.inl h2
          · exact Or.inr h2.1
      · exact Or.inr h
  | consDir name sub rest ihsub ihrest =>
      intro dirPath st q hq
      rw [walkEntries_consDir] at hq
      rcases ihrest dirPath _ q hq with h | h
      · split_ifs at h
        · exact Or.inl h
        · rcases ihsub _ st q h with h2 | h2
          · exact Or.inl h2
          · exact Or.inr h2
      · exact Or.inr h

theorem isIgnored_iff_of_abs {ip : Option (Finset String)} {S : Finset String}
    (hS : ip = some S) {e : String} (d : String) (he : headIsSlash e = true) :
    isIgnored ip d e = true ↔ e ∈ S := by
  subst hS
  unfold isIgnored
  rw [pjoin_of_headIsSlash he]
  exact decide_eq_true_iff

theorem walkEntries_ignored (w : AllWatcher) {S : Finset String}
    (hS : w.ignored_paths = some S) (es : FSDir) :
    ∀ dirPath st, headIsSlash dirPath = true →
      (∀ q ∈ (walkEntries w dirPath es st).changes, q ∈ st.changes ∨ q.2 ∉ S) ∧
      (∀ p ∈ dkeys (walkEntries w dirPath es st).newFiles,
        p ∈ dkeys st.newFiles ∨ p ∉ S) := by
  induction es with
  | nil =>
      intro dirPath st _
      rw [walkEntries_nil]
      exact ⟨fun q hq => Or.inl hq, fun p hp => Or.inl hp⟩
  | consFile name mtime rest ih =>
      intro dirPath st habs
      have habs2 : headIsSlash (pjoin dirPath name) = true := headIsSlash_pjoin name habs
      rw [walkEntries_consFile]
      by_cases hig : isIgnored w.ignored_paths dirPath (pjoin dirPath name) = true
      · rw [if_pos hig]
        exact ih dirPath st habs
      · rw [if_neg hig]
        have hnotS : pjoin dirPath name ∉ S := fun hmem =>
          hig ((isIgnored_iff_of_abs hS dirPath habs2).mpr hmem)
        obtain ⟨ihc, ihk⟩ := ih dirPath (watchFile w.files (pjoin dirPath name) mtime st) habs
        constructor
        · intro q hq
          rcases ihc q hq with h | h
          · rcases mem_watchFile_changes h with h2 | h2
            · exact Or.inl h2
            · rw [h2.2]
              exact Or.inr hnotS
          · exact Or.inr h
        · intro p hp
          rcases ihk p hp with h | h
          · rw [watchFile_newFiles, dkeys_dinsert] at h
            rcases Finset.mem_insert.mp h with h2 | h2
            · subst h2
              exact Or.inr hnotS
            · exact Or.inl h2
          · exact Or.inr h
  | consDir name sub rest ihsub ihrest =>
      intro dirPath st habs
      have habs2 : headIsSlash (pjoin dirPath name) = true := headIsSlash_pjoin name habs
      rw [walkEntries_consDir]
      by_cases hig : isIgnored w.ignored_paths dirPath (pjoin dirPath name) = true
      · rw [if_pos hig]
        exact ihrest dirPath st habs
      · rw [if_neg hig]
        obtain ⟨ihc, ihk⟩ := ihrest dirPath (walkEntries w (pjoin dirPath name) sub st) habs
        obtain ⟨ihc2, ihk2⟩ := ihsub (pjoin dirPath name) st habs2
        constructor
        · intro q hq
          rcases ihc q hq with h | h
          · exact ihc2 q h
          · exact Or.inr h
        · intro p hp
          rcases ihk p hp with h | h
          · exact ihk2 p h
          · exact Or.inr h

/-! ### `_walk` and `check` lemmas -/

theorem walk_added_of_new_key (w : AllWatcher) (fs : FSNode) (st : WalkState) (p : String)
    (hp : p ∈ dkeys (walk w fs st).newFiles) (hnone : dget w.files p = none) :
    p ∈ dkeys st.newFiles ∨ (Change.added, p) ∈ (walk w fs st).changes := by
  cases fs with
  | file mtime =>
      unfold walk at hp ⊢
      rw [watchFile_newFiles, dkeys_dinsert] at hp
      rcases Finset.mem_insert.mp hp with h | h
      · subst h
        exact Or.inr (watchFile_added mtime st hnone)
      · exact Or.inl h
  | dir es => exact walkEntries_added_of_new_key w es w.root_path st p hp hnone

theorem walk_modified_of_changed (w : AllWatcher) (fs : FSNode) (st : WalkState)
    (p : String) (m0 m1 : Int) (hp : dget (walk w fs st).newFiles p = some m1)
    (hold : dget w.files p = some m0) (h0 : m0 ≠ 0) (hm : m0 ≠ m1) :
    dget st.newFiles p = some m1 ∨ (Change.modified, p) ∈ (walk w fs st).changes := by
  cases fs with
  | file mtime =>
      unfold walk at hp ⊢
      rw [watchFile_newFiles, dget_dinsert] at hp
      by_cases hpe : w.root_path = p
      · rw [if_pos hpe] at hp
        have hmt : mtime = m1 := Option.some.inj hp
        subst hmt hpe
        exact Or.inr (watchFile_modified mtime st hold h0 hm)
      · rw [if_neg hpe] at hp
        exact Or.inl hp
  | dir es => exact walkEntries_modified_of_changed w es w.root_path st p m0 m1 hp hold h0 hm

theorem walk_added_mem_keys (w : AllWatcher) (fs : FSNode) (st : WalkState) (p : String)
    (hp : (Change.added, p) ∈ (walk w fs st).changes) :
    (Change.added, p) ∈ st.changes ∨ p ∈ dkeys (walk w fs st).newFiles := by
  cases fs with
  | file mtime =>
      unfold walk at hp ⊢
      rcases mem_watchFile_changes hp with h | h
      · exact Or.inl h
      · right
        rw [watchFile_newFiles, dkeys_dinsert]
        rw [show ((Change.added, p) : FileChange).2 = p from rfl] at h
        rw [← h.2]
        exact Finset.mem_insert_self _ _
  | dir es => exact walkEntries_added_mem_keys w es w.root_path st p hp

theorem walk_kinds (w : AllWatcher) (fs : FSNode) (st : WalkState) (q : FileChange)
    (hq : q ∈ (walk w fs st).changes) :
    q ∈ st.changes ∨ q.1 = Change.added ∨ q.1 = Change.modified := by
  cases fs with
  | file mtime =>
      unfold walk at hq
      rcases mem_watchFile_changes hq with h | h
      · exact Or.inl h
      · exact Or.inr h.1
  | dir es => exact walkEntries_kinds w es w.root_path st q hq

theorem walk_ignored (w : AllWatcher) {S : Finset String} (hS : w.ignored_paths = some S)
    (fs : FSNode) (st : WalkState) (habs : headIsSlash w.root_path = true)
    (hroot : w.root_path ∉ S) :
    (∀ q ∈ (walk w fs st).changes, q ∈ st.changes ∨ q.2 ∉ S) ∧
    (∀ p ∈ dkeys (walk w fs st).newFiles, p ∈ dkeys st.newFiles ∨ p ∉ S) := by
  cases fs with
  | file mtime =>
      unfold walk
      constructor
      · intro q hq
        rcases mem_watchFile_changes hq with h | h
        · exact Or.inl h
        · rw [h.2]
          exact Or.inr hroot
      · intro p hp
        rw [watchFile_newFiles, dkeys_dinsert] at hp
        rcases Finset.mem_insert.mp hp with h | h
        · subst h
          exact Or.inr hroot
        · exact Or.inl h
  | dir es => exact walkEntries_ignored w hS es w.root_path st habs

theorem check_fst (w : AllWatcher) (fs : FSNode) :
    (check w fs).1 = (walk w fs ⟨∅, []⟩).changes ∪
      ((dkeys w.files \ dkeys (walk w fs ⟨∅, []⟩).newFiles).image
        (fun p => (Change.deleted, p))) := rfl

theorem check_files (w : AllWatcher) (fs : FSNode) :
    (check w fs).2.files = (walk w fs ⟨∅, []⟩).newFiles := rfl

theorem check_root_path (w : AllWatcher) (fs : FSNode) :
    (check w fs).2.root_path = w.root_path := rfl

theorem check_ignored_paths (w : AllWatcher) (fs : FSNode) :
    (check w fs).2.ignored_paths = w.ignored_paths := rfl

/-- **C2, counterexample**: the claim "every path present in both maps whose
mtime differs yields a `(Modified, path)` record" fails when the stored mtime
is `0` (a falsy float in Python): `if not old_mtime` then reports `Added`.
The state is reachable: a baseline scan of a file with mtime `0`. -/
theorem check_modified_mtime_zero_cx :
    (mkAllWatcher "r" none (.file 0)).files = [("r", 0)] ∧
    dget (mkAllWatcher "r" none (.file 0)).files "r" = some 0 ∧
    dget (check (mkAllWatcher "r" none (.file 0)) (.file 1)).2.files "r" = some 1 ∧
    (Change.modified, "r") ∉ (check (mkAllWatcher "r" none (.file 0)) (.file 1)).1 := by
  decide

/-- **C2, amended**: for every polling-watcher state and snapshot: a new-map
path absent from the old map yields `Added`; a path in both maps whose *old
mtime is nonzero* and differs from the new one yields `Modified`; an old-map
path absent from the new map yields `Deleted`; the stored map afterwards is
the map collected by the walk. -/
theorem check_diff_spec (w : AllWatcher) (fs : FSNode) :
    (∀ p ∈ dkeys (check w fs).2.files, p ∉ dkeys w.files →
        (Change.added, p) ∈ (check w fs).1) ∧
    (∀ p m0 m1, dget w.files p = some m0 → m0 ≠ 0 →
        dget (check w fs).2.files p = some m1 → m0 ≠ m1 →
        (Change.modified, p) ∈ (check w fs).1) ∧
    (∀ p ∈ dkeys w.files, p ∉ dkeys (check w fs).2.files →
        (Change.deleted, p) ∈ (check w fs).1) ∧
    (check w fs).2.files = (walk w fs ⟨∅, []⟩).newFiles := by
  refine ⟨?_, ?_, ?_, rfl⟩
  · intro p hp hnot
    rw [check_files] at hp
    rw [check_fst]
    have hnone : dget w.files p = none := (dget_eq_none_iff _ _).mpr hnot
    rcases walk_added_of_new_key w fs ⟨∅, []⟩ p hp hnone with h | h
    · simp [dkeys] at h
    · exact Finset.mem_union_left _ h
  · intro p m0 m1 hold h0 hnew hm
    rw [check_files] at hnew
    rw [check_fst]
    rcases walk_modified_of_changed w fs ⟨∅, []⟩ p m0 m1 hnew hold h0 hm with h | h
    · exact absurd h (by simp [dget])
    · exact Finset.mem_union_left _ h
  · intro p hp hnot
    rw [check_files] at hnot
    rw [check_fst]
    refine Finset.mem_union_right _ ?_
    exact Finset.mem_image.mpr ⟨p, Finset.mem_sdiff.mpr ⟨hp, hnot⟩, rfl⟩

/-- Witness for the amended C2: old map `{"r" ↦ 5}`, new snapshot mtime `7`
gives a `Modified` record. -/
theorem check_diff_spec_witness :
    (Change.modified, "r") ∈ (check ⟨[("r", 5)], "r", none⟩ (.file 7)).1 :=
  (check_diff_spec ⟨[("r", 5)], "r", none⟩ (.file 7)).2.1 "r" 5 7
    (by decide) (by decide) (by decide) (by decide)

/-- **C5**: a single `check()` batch never contains both `(Added, p)` and
`(Deleted, p)` for the same path: `Added` is only recorded for a path put
into `new_files`, and `Deleted` only for old paths missing from `new_files`. -/
theorem check_no_added_and_deleted (w : AllWatcher) (fs : FSNode) (p : String)
    (h : (Change.added, p) ∈ (check w fs).1) :
    (Change.deleted, p) ∉ (check w fs).1 := by
  rw [check_fst] at h
  have hkey : p ∈ dkeys (walk w fs ⟨∅, []⟩).newFiles := by
    rcases Finset.mem_union.mp h with h | h
    · rcases walk_added_mem_keys w fs ⟨∅, []⟩ p h with h2 | h2
      · simp at h2
      · exact h2
    · obtain ⟨a, _, ha⟩ := Finset.mem_image.mp h
      exact absurd (congrArg Prod.fst ha) (by simp)
  rw [check_fst]
  intro hd
  rcases Finset.mem_union.mp hd with h2 | h2
  · rcases walk_kinds w fs ⟨∅, []⟩ _ h2 with h3 | h3 | h3
    · simp at h3
    · exact absurd h3 (by simp)
    · exact absurd h3 (by simp)
  · obtain ⟨a, ha, hae⟩ := Finset.mem_image.mp h2
    have hap : a = p := congrArg Prod.snd hae
    subst hap
    exact (Finset.mem_sdiff.mp ha).2 hkey

/-- Witness for C5: a fresh watcher sees `(Added, "r")` and hence no
`(Deleted, "r")` in the same batch. -/
theorem check_no_added_and_deleted_witness :
    (Change.deleted, "r") ∉ (check ⟨[], "r", none⟩ (.file 1)).1 :=
  check_no_added_and_deleted ⟨[], "r", none⟩ (.file 1) "r" (by decide)

/-- **C10, counterexample**: with `ignored_paths = S` a `check()` batch can
still contain a path of `S`.  Two concrete defects: (1) the guard lives only
in `_walk_dir`, so a root that is itself a file is stat-ed unconditionally
even when it is in `S`; (2) `_walk_dir` tests
`os.path.join(dir_path, entry)` where `entry` already os-fspaths to the full
`entry.path`, so for a *relative* root the doubled join (`"r/r/a"`) never
matches the ignored entry `"r/a"`. -/
theorem check_ignored_paths_cx :
    ((mkAllWatcher "r" (some {"r"}) (.file 1)).ignored_paths = some {"r"} ∧
     (Change.modified, "r") ∈
       (check (mkAllWatcher "r" (some {"r"}) (.file 1)) (.file 2)).1 ∧
     "r" ∈ ({"r"} : Finset String)) ∧
    ((mkAllWatcher "r" (some {"r/a"})
        (.dir (.consFile "a" 1 .nil))).ignored_paths = some {"r/a"} ∧
     (Change.modified, "r/a") ∈
       (check (mkAllWatcher "r" (some {"r/a"}) (.dir (.consFile "a" 1 .nil)))
         (.dir (.consFile "a" 2 .nil))).1 ∧
     "r/a" ∈ ({"r/a"} : Finset String)) := by
  decide

theorem check_avoids_ignored (w : AllWatcher) {S : Finset String}
    (hS : w.ignored_paths = some S) (habs : headIsSlash w.root_path = true)
    (hroot : w.root_path ∉ S) (hfiles : ∀ p ∈ dkeys w.files, p ∉ S) (fs : FSNode) :
    (∀ q ∈ (check w fs).1, q.2 ∉ S) ∧
    (∀ p ∈ dkeys (check w fs).2.files, p ∉ S) := by
  obtain ⟨hc, hk⟩ := walk_ignored w hS fs ⟨∅, []⟩ habs hroot
  constructor
  · intro q hq
    rw [check_fst] at hq
    rcases Finset.mem_union.mp hq with h | h
    · rcases hc q h with h2 | h2
      · simp at h2
      · exact h2
    · obtain ⟨a, ha, hae⟩ := Finset.mem_image.mp h
      have : a = q.2 := congrArg Prod.snd hae
      subst this
      exact hfiles _ (Finset.mem_sdiff.mp ha).1
  · intro p hp
    rw [check_files] at hp
    rcases hk p hp with h | h
    · simp [dkeys] at h
    · exact h

theorem runChecks_avoid_ignored {S : Finset String} (snaps : List FSNode) :
    ∀ w : AllWatcher, w.ignored_paths = some S → headIsSlash w.root_path = true →
      w.root_path ∉ S → (∀ p ∈ dkeys w.files, p ∉ S) →
      ∀ cs ∈ (runChecks w snaps).1, ∀ q ∈ cs, q.2 ∉ S := by
  induction snaps with
  | nil =>
      intro w _ _ _ _ cs hcs
      simp [runChecks] at hcs
  | cons fs rest ih =>
      intro w hS habs hroot hfiles cs hcs
      obtain ⟨h1, h2⟩ := check_avoids_ignored w hS habs hroot hfiles fs
      rcases List.mem_cons.mp hcs with h | h
      · subst h
        exact h1
      · refine ih (check w fs).2 ?_ ?_ ?_ h2 cs h
        · rw [check_ignored_paths]
          exact hS
        · rw [check_root_path]
          exact habs
        · rw [check_root_path]
          exact hroot

/-- **C10, amended**: for every `AllWatcher` constructed with a non-`None`
ignored set `S`, an *absolute* root path (leading `'/'`, so that the
re-join in `_walk_dir` collapses to the entry path) that is *not itself in
`S`*, no `check()` call of any subsequent sequence returns a record whose
path is in `S`. -/
theorem mkAllWatcher_checks_avoid_ignored (root : String) (S : Finset String)
    (fs0 : FSNode) (snaps : List FSNode) (habs : headIsSlash root = true)
    (hroot : root ∉ S) :
    ∀ cs ∈ (runChecks (mkAllWatcher root (some S) fs0) snaps).1,
      ∀ q ∈ cs, q.2 ∉ S := by
  have hinit : ∀ p ∈ dkeys (⟨[], root, some S⟩ : AllWatcher).files, p ∉ S := by
    intro p hp
    simp [dkeys] at hp
  refine runChecks_avoid_ignored snaps (mkAllWatcher root (some S) fs0) rfl habs hroot ?_
  exact (check_avoids_ignored ⟨[], root, some S⟩ rfl habs hroot hinit fs0).2

/-- Witness for the amended C10: absolute root `"/r"`, ignored entry
`"/r/b"`; the first post-construction batch only mentions `"/r/a"`. -/
theorem mkAllWatcher_checks_avoid_ignored_witness :
    ((Change.modified, "/r/a") : FileChange).2 ∉ ({"/r/b"} : Finset String) :=
  mkAllWatcher_checks_avoid_ignored "/r" {"/r/b"}
    (.dir (.consFile "a" 1 (.consFile "b" 1 .nil)))
    [.dir (.consFile "a" 2 (.consFile "b" 2 .nil))] (by decide) (by decide)
    (check (mkAllWatcher "/r" (some {"/r/b"})
      (.dir (.consFile "a" 1 (.consFile "b" 1 .nil))))
      (.dir (.consFile "a" 2 (.consFile "b" 2 .nil)))).1
    (List.mem_singleton.mpr rfl)
    (Change.modified, "/r/a") (by decide)

/-! ## The iterator facades, `watchfiles/main.py` -/

/-- How a run of the `watch` / `awatch` generator loop ends. -/
inductive LoopExit : Type
  | raisedKeyboardInterrupt
  | returnedNormally
  | raisedValueError
  | pending
deriving DecidableEq, Repr

/-- The result of one `RustNotify.watch` call as observed by the synchronous
facade `watch`: `none` models the `None` returned after an interrupt
signal, `some raw` a set of raw events. -/
abbrev SyncResult := Option (Finset RawEvent)

/-- The `while True` loop of `watch` (`watchfiles/main.py`), driven by the
stream of backend results: on `None`, raise `KeyboardInterrupt` if
`raise_interrupt` else log a warning and `return`; otherwise run
`_prep_changes` and yield the set iff it is non-empty.  `pending` marks the
end of the modelled stream (the real loop would keep waiting). -/
def watchLoop (raiseInterrupt : Bool) (wf : Option (Change → String → Bool)) :
    List SyncResult → List (Finset FileChange) × LoopExit
  | [] => ([], .pending)
  | none :: _ =>
      if raiseInterrupt then ([], .raisedKeyboardInterrupt)
      else ([], .returnedNormally)
  | some raw :: rest =>
      match prepChanges raw wf with
      | none => ([], .raisedValueError)
      | some cs =>
          let r := watchLoop raiseInterrupt wf rest
          if cs.Nonempty then (cs :: r.1, r.2) else r

/-- The result of one backend interaction of the asynchronous facade
`awatch`: a SIGINT makes the signal handler set `interrupted` and the stop
event (so the worker returns `None`); an externally set `stop_event` makes
the worker return `None` with `interrupted` still false; otherwise a raw
event set arrives. -/
inductive AsyncResult : Type
  | signalled
  | stopped
  | events (raw : Finset RawEvent)

/-- The `while True` loop of `awatch` (`watchfiles/main.py`): on `None` with
`interrupted` set, raise `KeyboardInterrupt` if `raise_interrupt` (else log)
and `return`; on `None` without interrupt, plain `return`; otherwise as in
`watch`. -/
def awatchLoop (raiseInterrupt : Bool) (wf : Option (Change → String → Bool)) :
    List AsyncResult → List (Finset FileChange) × LoopExit
  | [] => ([], .pending)
  | .signalled :: _ =>
      if raiseInterrupt then ([], .raisedKeyboardInterrupt)
      else ([], .returnedNormally)
  | .stopped :: _ => ([], .returnedNormally)
  | .events raw :: rest =>
      match prepChanges raw wf with
      | none => ([], .raisedValueError)
      | some cs =>
          let r := awatchLoop raiseInterrupt wf rest
          if cs.Nonempty then (cs :: r.1, r.2) else r

/-- **C3**: when `watch` observes `None` from the backend (the `Signal`
outcome) it yields nothing further; it raises `KeyboardInterrupt` when
`raise_interrupt` is true and otherwise terminates the generator normally
(after logging a warning, which is not modelled). -/
theorem watch_signal_exit (ri : Bool) (wf : Option (Change → String → Bool))
    (rest : List SyncResult) :
    watchLoop ri wf (none :: rest) =
      ([], if ri then LoopExit.raisedKeyboardInterrupt else LoopExit.returnedNormally) := by
  cases ri <;> rfl

/-- **C4**: when the `awatch` worker returns `None` because the stop event
was set without an interrupt, the async generator returns normally — no
further batch, no exception — whatever `raise_interrupt` is. -/
theorem awatch_stop_exit (ri : Bool) (wf : Option (Change → String → Bool))
    (rest : List AsyncResult) :
    awatchLoop ri wf (.stopped :: rest) = ([], LoopExit.returnedNormally) := rfl

/-- **C6**: every batch yielded by `watch` or `awatch` is non-empty, and a
cycle whose post-filter set is empty yields nothing and just continues the
loop. -/
theorem yielded_batches_nonempty (ri : Bool) (wf : Option (Change → String → Bool)) :
    (∀ results, ∀ b ∈ (watchLoop ri wf results).1, b.Nonempty) ∧
    (∀ results, ∀ b ∈ (awatchLoop ri wf results).1, b.Nonempty) ∧
    (∀ raw rest, prepChanges raw wf = some ∅ →
      watchLoop ri wf (some raw :: rest) = watchLoop ri wf rest) ∧
    (∀ raw rest, prepChanges raw wf = some ∅ →
      awatchLoop ri wf (.events raw :: rest) = awatchLoop ri wf rest) := by
  refine ⟨?_, ?_, ?_, ?_⟩
  · intro results
    induction results with
    | nil => intro b hb; simp [watchLoop] at hb
    | cons hd rest ih =>
        intro b hb
        match hd with
        | none =>
            rw [watch_signal_exit] at hb
            simp at hb
        | some raw =>
            rw [watchLoop] at hb
            rcases hpc : prepChanges raw wf with _ | cs
            · rw [hpc] at hb
              simp at hb
            · rw [hpc] at hb
              simp only at hb
              by_cases hne : cs.Nonempty
              · rw [if_pos hne] at hb
                rcases List.mem_cons.mp hb with h | h
                · subst h; exact hne
                · exact ih b h
              · rw [if_neg hne] at hb
                exact ih b hb
  · intro results
    induction results with
    | nil => intro b hb; simp [awatchLoop] at hb
    | cons hd rest ih =>
        intro b hb
        match hd with
        | .signalled =>
            rw [awatchLoop] at hb
            cases ri <;> simp at hb
        | .stopped =>
            rw [awatch_stop_exit] at hb
            simp at hb
        | .events raw =>
            rw [awatchLoop] at hb
            rcases hpc : prepChanges raw wf with _ | cs
            · rw [hpc] at hb
              simp at hb
            · rw [hpc] at hb
              simp only at hb
              by_cases hne : cs.Nonempty
              · rw [if_pos hne] at hb
                rcases List.mem_cons.mp hb with h | h
                · subst h; exact hne
                · exact ih b h
              · rw [if_neg hne] at hb
                exact ih b hb
  · intro raw rest hpc
    rw [watchLoop, hpc]
    simp
  · intro raw rest hpc
    rw [awatchLoop, hpc]
    simp

/-- Witness for C6: a backend batch `{(1, "a")}` is yielded as the non-empty
set `{(added, "a")}`. -/
theorem yielded_batches_nonempty_witness :
    ({(Change.added, "a")} : Finset FileChange).Nonempty :=
  (yielded_batches_nonempty true none).1 [some {(1, "a")}]
    {(Change.added, "a")} (by decide)

/-! ## The debouncer (rust backend), spec §4.5 -/

/-- Modelled from the spec: the debouncing loop of the rust backend behind
`RustNotify.watch` — its source (`src/lib.rs`) is not among the Python
sources under review.  Spec §4.5: after the first raw event of the cycle
arrived at time `t1`, the loop keeps popping the event channel with waits
bounded by `step`; an event arriving within the deadline is accumulated and
then delivery happens as soon as `now − t1 ≥ debounce` (debounce cap),
while a pop that times out with a non-empty accumulator delivers at
`now + step` (step quiescence).  `events` lists the arrival times of the
subsequent raw events in order; the result is the delivery time of the
`Changes` outcome.  The stop event and the session timeout, which can only
end the cycle *earlier*, are not modelled. -/
def deliveryTime (debounce step t1 : Nat) : Nat → List Nat → Nat
  | now, [] => now + step
  | now, e :: rest =>
      if e ≤ now + step then
        if debounce ≤ max e now - t1 then max e now
        else deliveryTime debounce step t1 (max e now) rest
      else now + step

theorem deliveryTime_le (debounce step t1 : Nat) (events : List Nat) :
    ∀ now, now ≤ t1 + debounce →
      deliveryTime debounce step t1 now events ≤ t1 + debounce + step := by
  induction events with
  | nil =>
      intro now h
      rw [deliveryTime]
      omega
  | cons e rest ih =>
      intro now h
      rw [deliveryTime]
      rcases Nat.le_total e now with hle | hle
      · rw [max_eq_right hle]
        split_ifs with h1 h2
        · omega
        · exact ih now h
        · omega
      · rw [max_eq_left hle]
        split_ifs with h1 h2
        · omega
        · refine ih e ?_
          omega
        · omega

/-- **C7** (spec-modelled): in every cycle where at least one raw event
arrives, the interval between the arrival of the first raw event (`t1`,
which is also the time the loop resumes popping) and the delivery of the
accumulated `Changes` outcome is at most `debounce + step`. -/
theorem debounce_delivery_bound (debounce step t1 : Nat) (events : List Nat) :
    deliveryTime debounce step t1 t1 events - t1 ≤ debounce + step := by
  have h := deliveryTime_le debounce step t1 events t1 (Nat.le_add_right _ _)
  omega

/-! ## Stopping the reload process, `_stop_process` / `CombinedProcess.stop` -/

/-- What `_stop_process` can observe about the spawned process: whether
`process.is_alive()` holds when `stop` is entered, and the value of
`process.exitcode` once the post-SIGINT `join(sigint_timeout)` has
returned. -/
structure ProcInfo : Type where
  alive : Bool
  exitcodeAfterInt : Option Int

/-- The externally visible actions of `_stop_process`, in order. -/
inductive StopAction : Type
  | sigint
  | sigkill
  | join (seconds : Nat)
deriving DecidableEq, Repr

/-- `_stop_process` from `watchfiles/main.py` (equally
`CombinedProcess.stop` from `watchfiles/run.py`, whose timeouts default to
the same 5 and 1 seconds): if the process is alive, send SIGINT and
`join(sigint_timeout)`; if `exitcode` is still `None` afterwards, send
SIGKILL and `join(sigkill_timeout)`; a dead process gets no signal.
`main.py` hard-codes `sigintTimeout = 5`, `sigkillTimeout = 1`. -/
def stopProcess (p : ProcInfo) (sigintTimeout sigkillTimeout : Nat) : List StopAction :=
  if p.alive then
    .sigint :: .join sigintTimeout ::
      (match p.exitcodeAfterInt with
       | none => [.sigkill, .join sigkillTimeout]
       | some _ => [])
  else []

/-- **C8**: an alive process gets SIGINT followed by the grace-period wait
(default 5 s); SIGKILL (followed by the second wait, default 1 s) is sent
iff the process had not exited by the end of the grace period; a dead
process receives no signal at all. -/
theorem stop_process_spec (p : ProcInfo) (it kt : Nat) :
    (StopAction.sigint ∈ stopProcess p it kt ↔ p.alive = true) ∧
    (StopAction.sigkill ∈ stopProcess p it kt ↔
      (p.alive = true ∧ p.exitcodeAfterInt = none)) ∧
    (p.alive = true → stopProcess p it kt =
      .sigint :: .join it ::
        (match p.exitcodeAfterInt with
         | none => [.sigkill, .join kt]
         | some _ => [])) ∧
    (p.alive = false → stopProcess p it kt = []) := by
  obtain ⟨alive, ec⟩ := p
  cases alive <;> cases ec <;> simp [stopProcess]

/-- Witness for C8: an alive process that survives the grace period
receives a SIGKILL with the default timeouts 5 and 1. -/
theorem stop_process_spec_witness :
    StopAction.sigkill ∈ stopProcess ⟨true, none⟩ 5 1 :=
  (stop_process_spec ⟨true, none⟩ 5 1).2.1.mpr ⟨rfl, rfl⟩

/-! ## The `WATCHFILES_CHANGES` environment variable, `_start_process` -/

/-- A lowercase hex digit, as used by `json.dumps` in `\uXXXX` escapes. -/
def hexDigit (n : Nat) : Char :=
  if n < 10 then Char.ofNat (48 + n) else Char.ofNat (87 + n)

/-- Four lowercase hex digits. -/
def hex4 (n : Nat) : String :=
  String.mk [hexDigit (n / 4096 % 16), hexDigit (n / 256 % 16),
             hexDigit (n / 16 % 16), hexDigit (n % 16)]

/-- How `json.dumps` (default options, `ensure_ascii=True`) writes one
character of a string: the two-character escapes for quote, backslash and
the common control characters; `\uXXXX` (a surrogate pair above the BMP)
for other characters outside printable ASCII `0x20`–`0x7e`; else the
character itself. -/
def jsonEscChar (c : Char) : String :=
  if c = '"' then "\\\""
  else if c = '\\' then "\\\\"
  else if c = '\n' then "\\n"
  else if c = '\r' then "\\r"
  else if c = '\t' then "\\t"
  else if c = Char.ofNat 8 then "\\b"
  else if c = Char.ofNat 12 then "\\f"
  else if c.toNat < 32 ∨ c.toNat > 126 then
    if c.toNat ≥ 65536 then
      "\\u" ++ hex4 (55296 + (c.toNat - 65536) / 1024) ++
        "\\u" ++ hex4 (56320 + (c.toNat - 65536) % 1024)
    else "\\u" ++ hex4 c.toNat
  else String.singleton c

/-- `json.dumps` of a string. -/
def jsonEscape (s : String) : String := String.join (s.data.map jsonEscChar)

/-- `json.dumps` of the two-string list `[a, b]` (default separator `", "`). -/
def pyJsonPair (a b : String) : String :=
  "[" ++ "\"" ++ jsonEscape a ++ "\"" ++ ", " ++ "\"" ++ jsonEscape b ++ "\"" ++ "]"

/-- `json.dumps` of a list of two-string lists. -/
def pyJsonDumpPairs (l : List (String × String)) : String :=
  "[" ++ String.intercalate ", " (l.map (fun e => pyJsonPair e.1 e.2)) ++ "]"

/-- The `WATCHFILES_CHANGES` value computed by `_start_process`
(`watchfiles/main.py`, identically `start_process` in `watchfiles/run.py`):
`'[]'` when `changes is None`, else
`json.dumps([[c.raw_str(), p] for c, p in changes])`.  The Python set is
modelled as the list of its iteration order. -/
def changesEnvVar (changes : Option (List FileChange)) : String :=
  match changes with
  | none => "[]"
  | some cs => pyJsonDumpPairs (cs.map (fun cp => (cp.1.raw_str, cp.2)))

/-- **C9**: the spawned child's `WATCHFILES_CHANGES` is the JSON array of
`[kind_name, path]` pairs of the batch, with `kind_name` the lowercase
`raw_str` name of the record's kind; no batch (initial start) and the empty
batch both give `"[]"`. -/
theorem changes_env_var_spec :
    changesEnvVar none = "[]" ∧
    changesEnvVar (some []) = "[]" ∧
    (∀ cs : List FileChange, changesEnvVar (some cs) =
      "[" ++ String.intercalate ", "
        (cs.map (fun cp => pyJsonPair cp.1.raw_str cp.2)) ++ "]") ∧
    Change.added.raw_str = "added" ∧
    Change.modified.raw_str = "modified" ∧
    Change.deleted.raw_str = "deleted" ∧
    (∀ c : Change, Change.ofRaw c.toRaw = some c) ∧
    changesEnvVar (some [(Change.added, "a.py"), (Change.deleted, "b/c.py")]) =
      "[[\"added\", \"a.py\"], [\"deleted\", \"b/c.py\"]]" := by
  refine ⟨rfl, rfl, ?_, rfl, rfl, rfl, Change.ofRaw_toRaw, ?_⟩
  · intro cs
    simp only [changesEnvVar, pyJsonDumpPairs, List.map_map]
    rfl
  · decide

end Watchfiles
